import Mathlib

/-!
Verification of the move-search core of a Python chess engine
(static evaluation, move ordering, depth-limited minimax with
alpha-beta pruning and a transposition dictionary, root move selector).

The chess-rules collaborator (the external python-chess library) is out
of scope for the engine itself, so it is modelled abstractly as a
structure of query and transition functions over opaque board and move
types.  The engine code is translated function by function:

* Scores in the source are Python floats, but every value the engine
  ever produces is either an exact small integer (a material balance)
  or one of the two infinities used as checkmate sentinels; float
  arithmetic is never performed on them beyond max / min / comparison.
  Scores are therefore embedded exactly as `WithBot (WithTop Int)`.
* The source mutates one shared board via `push` / `pop` and a
  process-wide dict `transposition_table`; the embedding threads an
  explicit `GameState` (current position plus the undo stack that
  `push` records and `pop` consumes) and an explicit association-list
  table through every call, so the mutation discipline is visible in
  the types.
* `depth` is modelled as a natural number: the search treats depth 0 as
  terminal and only ever decreases it by one, matching the intended
  domain of the code (the GUI invokes the search at depth 5).
-/

namespace ChessEngine

/-- Evaluation scores: integers together with the two infinite
checkmate sentinels, ordered as negInf < integers < posInf. -/
abbrev Score : Type := WithBot (WithTop ℤ)

/-- Embed an exact integer score. -/
def scoreOfInt (n : ℤ) : Score := ((n : WithTop ℤ) : Score)

/-- The six chess piece kinds of the rules collaborator. -/
inductive PieceType : Type
  | pawn | knight | bishop | rook | queen | king
deriving DecidableEq

/-- A piece as reported by the collaborator: kind plus owner
(`color = true` is White, matching `chess.WHITE == True`). -/
structure Piece : Type where
  ptype : PieceType
  color : Bool
deriving DecidableEq

/-- The table `piece_values` of the source. -/
def piece_values : PieceType → ℤ
  | .pawn => 1
  | .knight => 3
  | .bishop => 3
  | .rook => 5
  | .queen => 9
  | .king => 0

/-- The interface the engine consumes from the rules collaborator
(python-chess): predicates, per-square lookup, legal move enumeration,
move data, the canonical FEN encoding and the apply-move transition.
All of board legality is behind this interface, as the specification
places it out of scope. -/
structure ChessLib (B M : Type) : Type where
  fen : B → String
  turn : B → Bool
  is_checkmate : B → Bool
  is_stalemate : B → Bool
  is_insufficient_material : B → Bool
  is_game_over : B → Bool
  piece_at : B → Nat → Option Piece
  legal_moves : B → List M
  is_capture : B → M → Bool
  gives_check : B → M → Bool
  promotion : M → Option PieceType
  to_square : M → Nat
  from_square : M → Nat
  push : B → M → B

/-- The square list `chess.SQUARES` (0 .. 63). -/
def SQUARES : List Nat := List.range 64

variable {B M : Type}

/-- Signed value one square contributes to the material sum. -/
def square_contrib (lib : ChessLib B M) (b : B) (sq : Nat) : ℤ :=
  match lib.piece_at b sq with
  | some p => if p.color then piece_values p.ptype else -piece_values p.ptype
  | none => 0

/-- The material-balance loop of `evaluate_board`. -/
def matBal (lib : ChessLib B M) (b : B) : ℤ :=
  SQUARES.foldl (fun sc sq => sc + square_contrib lib b sq) 0

/-- Function `evaluate_board` of the source: checkmate sentinels, draw cases,
otherwise material balance. -/
def evaluate_board (lib : ChessLib B M) (b : B) : Score :=
  if lib.is_checkmate b then (if lib.turn b then (⊥ : Score) else (⊤ : Score))
  else if lib.is_stalemate b || lib.is_insufficient_material b then scoreOfInt 0
  else scoreOfInt (matBal lib b)

/-- The inner `score_move` of `order_moves`: capture bonus
10 * victim - attacker, +8 for a promotion, +5 for a checking move. -/
def score_move (lib : ChessLib B M) (b : B) (m : M) : ℤ :=
  (if lib.is_capture b m then
      10 * (match lib.piece_at b (lib.to_square m) with
            | some p => piece_values p.ptype
            | none => 0)
        - (match lib.piece_at b (lib.from_square m) with
            | some p => piece_values p.ptype
            | none => 0)
    else 0)
  + (if (lib.promotion m).isSome then 8 else 0)
  + (if lib.gives_check b m then 5 else 0)

/-- Function `order_moves` of the source: the legal moves stably sorted by
descending heuristic score (`sorted(..., reverse=True)` is the unique
stable descending sort, here realised by insertion sort). -/
def order_moves (lib : ChessLib B M) (b : B) : List M :=
  List.insertionSort (fun a c => score_move lib b c ≤ score_move lib b a)
    (lib.legal_moves b)

/-- Keys of the transposition dict: `(board.fen(), depth, maximizing_player)`. -/
abbrev CacheKey : Type := String × Nat × Bool

/-- The transposition dict, as an association list; a new binding
shadows any older one, giving Python-dict lookup semantics. -/
abbrev TT : Type := List (CacheKey × Score)

/-- Dict membership / read: first binding for the key. -/
def ttLookup : TT → CacheKey → Option Score
  | [], _ => none
  | (k', v) :: tt, k => if k' = k then some v else ttLookup tt k

/-- Dict write `transposition_table[key] = val`. -/
def ttStore (tt : TT) (k : CacheKey) (v : Score) : TT := (k, v) :: tt

/-- The mutable board of the search: current position plus the stack
of previous positions that `board.push` records and `board.pop`
restores. -/
structure GameState (B : Type) : Type where
  pos : B
  hist : List B
deriving DecidableEq

/-- Operation `board.push(move)`. -/
def pushGS (lib : ChessLib B M) (s : GameState B) (m : M) : GameState B :=
  ⟨lib.push s.pos m, s.pos :: s.hist⟩

/-- Operation `board.pop()` (never called on an empty stack by the engine). -/
def popGS : GameState B → GameState B
  | ⟨p, []⟩ => ⟨p, []⟩
  | ⟨_, q :: h⟩ => ⟨q, h⟩

/-- The move loop of the maximizing branch of `minimax`: push, recurse
through `f`, pop, update running best and alpha, break on
`beta <= alpha`.  `f` receives the current alpha, beta, state, table. -/
def searchLoopMax (lib : ChessLib B M)
    (f : Score → Score → GameState B → TT → Score × GameState B × TT) :
    List M → Score → Score → Score → GameState B → TT →
      Score × GameState B × TT
  | [], maxEval, _, _, s, tt => (maxEval, s, tt)
  | m :: ms, maxEval, alpha, beta, s, tt =>
    let r := f alpha beta (pushGS lib s m) tt
    if beta ≤ max alpha r.1 then (max maxEval r.1, popGS r.2.1, r.2.2)
    else searchLoopMax lib f ms (max maxEval r.1) (max alpha r.1) beta
      (popGS r.2.1) r.2.2

/-- The move loop of the minimizing branch of `minimax`. -/
def searchLoopMin (lib : ChessLib B M)
    (f : Score → Score → GameState B → TT → Score × GameState B × TT) :
    List M → Score → Score → Score → GameState B → TT →
      Score × GameState B × TT
  | [], minEval, _, _, s, tt => (minEval, s, tt)
  | m :: ms, minEval, alpha, beta, s, tt =>
    let r := f alpha beta (pushGS lib s m) tt
    if min beta r.1 ≤ alpha then (min minEval r.1, popGS r.2.1, r.2.2)
    else searchLoopMin lib f ms (min minEval r.1) alpha (min beta r.1)
      (popGS r.2.1) r.2.2

/-- Function `minimax` of the source: cache lookup first, then the
terminal-or-depth check, then the pruned move loops; the result is
stored under the node key on every non-cached return path.  The
returned triple is (value, board after the call, table after the
call). -/
def minimax (lib : ChessLib B M) :
    Nat → GameState B → Score → Score → Bool → TT →
      Score × GameState B × TT
  | 0, s, _, _, maximizing, tt =>
    match ttLookup tt (lib.fen s.pos, 0, maximizing) with
    | some v => (v, s, tt)
    | none =>
      let v := evaluate_board lib s.pos
      (v, s, ttStore tt (lib.fen s.pos, 0, maximizing) v)
  | d + 1, s, alpha, beta, maximizing, tt =>
    match ttLookup tt (lib.fen s.pos, d + 1, maximizing) with
    | some v => (v, s, tt)
    | none =>
      if lib.is_game_over s.pos then
        let v := evaluate_board lib s.pos
        (v, s, ttStore tt (lib.fen s.pos, d + 1, maximizing) v)
      else if maximizing then
        let r := searchLoopMax lib (fun a b st t => minimax lib d st a b false t)
          (order_moves lib s.pos) ⊥ alpha beta s tt
        (r.1, r.2.1, ttStore r.2.2 (lib.fen s.pos, d + 1, maximizing) r.1)
      else
        let r := searchLoopMin lib (fun a b st t => minimax lib d st a b true t)
          (order_moves lib s.pos) ⊤ alpha beta s tt
        (r.1, r.2.1, ttStore r.2.2 (lib.fen s.pos, d + 1, maximizing) r.1)

/-- The root loop of `find_best_move`: push, search the reply as the
maximizer, pop, keep the move on a strict improvement and lower beta. -/
def fbmLoop (lib : ChessLib B M) (d : Nat) :
    List M → Option M → Score → Score → Score → GameState B → TT →
      Option M × GameState B × TT
  | [], best, _, _, _, s, tt => (best, s, tt)
  | m :: ms, best, bestVal, alpha, beta, s, tt =>
    let r := minimax lib d (pushGS lib s m) alpha beta true tt
    if r.1 < bestVal then
      fbmLoop lib d ms (some m) r.1 alpha (min beta r.1) (popGS r.2.1) r.2.2
    else
      fbmLoop lib d ms best bestVal alpha beta (popGS r.2.1) r.2.2

/-- Function `find_best_move` of the source: minimizing root driver, best value
starts at the positive sentinel, full initial window. -/
def find_best_move (lib : ChessLib B M) (depth : Nat) (s : GameState B)
    (tt : TT) : Option M × GameState B × TT :=
  fbmLoop lib (depth - 1) (order_moves lib s.pos) none ⊤ ⊥ ⊤ s tt

/-- Modelled from the spec: the "unpruned, uncached full minimax of
the same depth over the same move ordering" against which the pruning
search is compared (spec section 8, pruning soundness).  No window, no
table, no board mutation; values only. -/
def plainMinimax (lib : ChessLib B M) : Nat → B → Bool → Score
  | 0, b, _ => evaluate_board lib b
  | d + 1, b, maximizing =>
    if lib.is_game_over b then evaluate_board lib b
    else if maximizing then
      (order_moves lib b).foldl
        (fun acc m => max acc (plainMinimax lib d (lib.push b m) false)) ⊥
    else
      (order_moves lib b).foldl
        (fun acc m => min acc (plainMinimax lib d (lib.push b m) true)) ⊤

/-- Modelled from the spec: the root selection loop over the unpruned
minimax, with the same move ordering and the same strict-improvement
tie-breaking as the source root loop. -/
def pbmLoop (lib : ChessLib B M) (d : Nat) (b : B) :
    List M → Option M → Score → Option M
  | [], best, _ => best
  | m :: ms, best, bestVal =>
    let v := plainMinimax lib d (lib.push b m) true
    if v < bestVal then pbmLoop lib d b ms (some m) v
    else pbmLoop lib d b ms best bestVal

/-- Modelled from the spec: the move chosen by the unpruned, uncached
full minimax at the given depth. -/
def plain_best_move (lib : ChessLib B M) (depth : Nat) (b : B) : Option M :=
  pbmLoop lib (depth - 1) b (order_moves lib b) none ⊤

/-- The maximizing move loop of `minimax` with the transposition cache
disabled: same push / recurse / update / break structure, values only. -/
def abLoopMax (f : Score → Score → M → Score) :
    List M → Score → Score → Score → Score
  | [], maxEval, _, _ => maxEval
  | m :: ms, maxEval, alpha, beta =>
    let v := f alpha beta m
    if beta ≤ max alpha v then max maxEval v
    else abLoopMax f ms (max maxEval v) (max alpha v) beta

/-- The minimizing move loop of `minimax` with the cache disabled. -/
def abLoopMin (f : Score → Score → M → Score) :
    List M → Score → Score → Score → Score
  | [], minEval, _, _ => minEval
  | m :: ms, minEval, alpha, beta =>
    let v := f alpha beta m
    if min beta v ≤ alpha then min minEval v
    else abLoopMin f ms (min minEval v) alpha (min beta v)

/-- Function `minimax` of the source with the transposition cache disabled:
every lookup misses and stores are dropped, everything else is
unchanged.  Used to state how much of the pruning-soundness claim
survives the shared cache. -/
def minimaxNoCache (lib : ChessLib B M) : Nat → B → Score → Score → Bool → Score
  | 0, b, _, _, _ => evaluate_board lib b
  | d + 1, b, alpha, beta, maximizing =>
    if lib.is_game_over b then evaluate_board lib b
    else if maximizing then
      abLoopMax (fun a bt m => minimaxNoCache lib d (lib.push b m) a bt false)
        (order_moves lib b) ⊥ alpha beta
    else
      abLoopMin (fun a bt m => minimaxNoCache lib d (lib.push b m) a bt true)
        (order_moves lib b) ⊤ alpha beta

/-- The root loop of `find_best_move` over the cache-disabled search
(alpha stays at the bottom sentinel exactly as in the source, beta is
lowered on each strict improvement and always equals the best value). -/
def nbmLoop (lib : ChessLib B M) (d : Nat) (b : B) :
    List M → Option M → Score → Score → Option M
  | [], best, _, _ => best
  | m :: ms, best, bestVal, beta =>
    let v := minimaxNoCache lib d (lib.push b m) ⊥ beta true
    if v < bestVal then nbmLoop lib d b ms (some m) v (min beta v)
    else nbmLoop lib d b ms best bestVal beta

/-- Function `find_best_move` of the source with the transposition cache
disabled. -/
def find_best_move_nocache (lib : ChessLib B M) (depth : Nat) (b : B) :
    Option M :=
  nbmLoop lib (depth - 1) b (order_moves lib b) none ⊤ ⊤

/-- Keys of the transposition dict in the depth-faithful model: the
depth component is the Python int, which goes negative below a root
search of depth 0. -/
abbrev CacheKeyI : Type := String × Int × Bool

/-- The transposition dict of the depth-faithful model. -/
abbrev TTI : Type := List (CacheKeyI × Score)

/-- Dict membership / read for integer-depth keys. -/
def ttLookupI : TTI → CacheKeyI → Option Score
  | [], _ => none
  | (k', v) :: tt, k => if k' = k then some v else ttLookupI tt k

/-- Dict write for integer-depth keys. -/
def ttStoreI (tt : TTI) (k : CacheKeyI) (v : Score) : TTI := (k, v) :: tt

/-- Fuel-indexed variant of the maximizing move loop over the
integer-depth table: the recursive call may report fuel exhaustion. -/
def searchLoopMaxFI (lib : ChessLib B M)
    (f : Score → Score → GameState B → TTI →
      Option (Score × GameState B × TTI)) :
    List M → Score → Score → Score → GameState B → TTI →
      Option (Score × GameState B × TTI)
  | [], maxEval, _, _, s, tt => some (maxEval, s, tt)
  | m :: ms, maxEval, alpha, beta, s, tt =>
    match f alpha beta (pushGS lib s m) tt with
    | none => none
    | some r =>
      if beta ≤ max alpha r.1 then some (max maxEval r.1, popGS r.2.1, r.2.2)
      else searchLoopMaxFI lib f ms (max maxEval r.1) (max alpha r.1) beta
        (popGS r.2.1) r.2.2

/-- Fuel-indexed variant of the minimizing move loop over the
integer-depth table. -/
def searchLoopMinFI (lib : ChessLib B M)
    (f : Score → Score → GameState B → TTI →
      Option (Score × GameState B × TTI)) :
    List M → Score → Score → Score → GameState B → TTI →
      Option (Score × GameState B × TTI)
  | [], minEval, _, _, s, tt => some (minEval, s, tt)
  | m :: ms, minEval, alpha, beta, s, tt =>
    match f alpha beta (pushGS lib s m) tt with
    | none => none
    | some r =>
      if min beta r.1 ≤ alpha then some (min minEval r.1, popGS r.2.1, r.2.2)
      else searchLoopMinFI lib f ms (min minEval r.1) alpha (min beta r.1)
        (popGS r.2.1) r.2.2

/-- Function `minimax` with the depth as a genuine (possibly negative)
integer, exactly as in the source, under a general-recursion (fuel)
semantics: each call consumes one unit of fuel, `none` means the fuel
ran out before the call tree bottomed out, and the single terminal
test is the literal `depth == 0 or game over` of the source, which a
negative depth never satisfies.  Termination of the source recursion
at a given node is the statement that some finite fuel suffices
there. -/
def minimaxFuelInt (lib : ChessLib B M) :
    Nat → Int → GameState B → Score → Score → Bool → TTI →
      Option (Score × GameState B × TTI)
  | 0, _, _, _, _, _, _ => none
  | fuel + 1, d, s, alpha, beta, maximizing, tt =>
    match ttLookupI tt (lib.fen s.pos, d, maximizing) with
    | some v => some (v, s, tt)
    | none =>
      if d = 0 ∨ lib.is_game_over s.pos = true then
        let v := evaluate_board lib s.pos
        some (v, s, ttStoreI tt (lib.fen s.pos, d, maximizing) v)
      else if maximizing then
        match searchLoopMaxFI lib
            (fun a b st t => minimaxFuelInt lib fuel (d - 1) st a b false t)
            (order_moves lib s.pos) ⊥ alpha beta s tt with
        | none => none
        | some r =>
          some (r.1, r.2.1, ttStoreI r.2.2 (lib.fen s.pos, d, maximizing) r.1)
      else
        match searchLoopMinFI lib
            (fun a b st t => minimaxFuelInt lib fuel (d - 1) st a b true t)
            (order_moves lib s.pos) ⊤ alpha beta s tt with
        | none => none
        | some r =>
          some (r.1, r.2.1, ttStoreI r.2.2 (lib.fen s.pos, d, maximizing) r.1)

/-- Fuel-indexed variant of the root loop over the integer-depth
search. -/
def fbmLoopFI (lib : ChessLib B M) (fuel : Nat) (d : Int) :
    List M → Option M → Score → Score → Score → GameState B → TTI →
      Option (Option M × GameState B × TTI)
  | [], best, _, _, _, s, tt => some (best, s, tt)
  | m :: ms, best, bestVal, alpha, beta, s, tt =>
    match minimaxFuelInt lib fuel d (pushGS lib s m) alpha beta true tt with
    | none => none
    | some r =>
      if r.1 < bestVal then
        fbmLoopFI lib fuel d ms (some m) r.1 alpha (min beta r.1)
          (popGS r.2.1) r.2.2
      else fbmLoopFI lib fuel d ms best bestVal alpha beta (popGS r.2.1) r.2.2

/-- Function `find_best_move` with the depth as a genuine integer
under the fuel semantics: the root passes `depth - 1` to the search
as true integer subtraction, so a root depth of 0 sends -1 down the
recursion, exactly as the source does. -/
def find_best_moveFI (lib : ChessLib B M) (fuel : Nat) (depth : Int)
    (s : GameState B) (tt : TTI) : Option (Option M × GameState B × TTI) :=
  fbmLoopFI lib fuel (depth - 1) (order_moves lib s.pos) none ⊤ ⊥ ⊤ s tt

/-- Divergence of a move selection in the fuel semantics: every fuel
bound is exhausted before the selection completes. -/
def selectionDiverges (lib : ChessLib B M) (depth : Int) (s : GameState B)
    (tt : TTI) : Prop :=
  ∀ fuel : Nat, find_best_moveFI lib fuel depth s tt = none

/-- Fail-soft alpha-beta soundness relation (after Knuth and Moore):
inside the window the returned value `r` is the exact minimax value
`v`; failing low it is an upper bound on `v`; failing high a lower
bound. -/
def KMrel (alpha beta r v : Score) : Prop :=
  (r ≤ alpha → v ≤ r) ∧ (beta ≤ r → r ≤ v) ∧ (alpha < r → r < beta → r = v)

/-- A small concrete instance of the rules interface used to evaluate
the engine on explicit inputs.  Boards and moves are numbers and a
move is named by the position it leads to, so `push _ m = m`.  The
game tree from position 0:
0 -> 1 (via move 1) and 0 -> 2 (via move 2); 1 -> 3, 1 -> 4; 2 -> 4
(positions 1 and 2 transpose into the common position 4); 3 -> 5;
4 -> 6 and 4 -> 7.  Positions 5 and 6 hold a white queen and a white
pawn (material 10), position 7 is empty (material 0); no position is
checkmate, stalemate, insufficient or game over, and no move is a
capture, a check or a promotion, so move ordering keeps list order. -/
def toyLib : ChessLib Nat Nat where
  fen n := match n with
    | 0 => "p0" | 1 => "p1" | 2 => "p2" | 3 => "p3"
    | 4 => "p4" | 5 => "p5" | 6 => "p6" | 7 => "p7" | _ => "px"
  turn _ := true
  is_checkmate _ := false
  is_stalemate _ := false
  is_insufficient_material _ := false
  is_game_over _ := false
  piece_at n sq :=
    if n = 5 ∨ n = 6 then
      if sq = 0 then some ⟨.queen, true⟩
      else if sq = 1 then some ⟨.pawn, true⟩
      else none
    else none
  legal_moves n := match n with
    | 0 => [1, 2] | 1 => [3, 4] | 2 => [4] | 3 => [5] | 4 => [6, 7]
    | _ => []
  is_capture _ _ := false
  gives_check _ _ := false
  promotion _ := none
  to_square _ := 0
  from_square _ := 0
  push _ m := m

/-- A second concrete instance: from position 0 Black has the single
legal move to 1, from 1 White has the single reply to 2, and position
2 is checkmate with Black to move (White has mated), so its evaluation
is the positive sentinel.  Position 3 is a stalemate used to exercise
the draw branch of the evaluator. -/
def mateLib : ChessLib Nat Nat where
  fen n := match n with
    | 0 => "q0" | 1 => "q1" | 2 => "q2" | 3 => "q3" | _ => "qx"
  turn n := if n = 2 then false else true
  is_checkmate n := n = 2
  is_stalemate n := n = 3
  is_insufficient_material _ := false
  is_game_over n := n = 2
  piece_at _ _ := none
  legal_moves n := match n with
    | 0 => [1] | 1 => [2] | _ => []
  is_capture _ _ := false
  gives_check _ _ := false
  promotion _ := none
  to_square _ := 0
  from_square _ := 0
  push _ m := m

/-- A third concrete instance: a single position with one legal move
leading back to itself, which the collaborator never reports as game
over.  Legal for the interface (the rules engine is out of scope and
trusted), it exhibits what the depth check alone guarantees. -/
def loopLib : ChessLib Nat Nat where
  fen _ := "L0"
  turn _ := true
  is_checkmate _ := false
  is_stalemate _ := false
  is_insufficient_material _ := false
  is_game_over _ := false
  piece_at _ _ := none
  legal_moves _ := [0]
  is_capture _ _ := false
  gives_check _ _ := false
  promotion _ := none
  to_square _ := 0
  from_square _ := 0
  push _ m := m

lemma ttLookup_store_self (tt : TT) (k : CacheKey) (v : Score) :
    ttLookup (ttStore tt k v) k = some v := by
  simp [ttStore, ttLookup]

lemma ttLookup_store_ne (tt : TT) (k k' : CacheKey) (v : Score)
    (h : k ≠ k') : ttLookup (ttStore tt k v) k' = ttLookup tt k' := by
  simp [ttStore, ttLookup, h]

lemma popGS_pushGS (lib : ChessLib B M) (s : GameState B) (m : M) :
    popGS (pushGS lib s m) = s := by
  cases s
  rfl

lemma searchLoopMax_state (lib : ChessLib B M)
    (f : Score → Score → GameState B → TT → Score × GameState B × TT)
    (hf : ∀ a b st t, (f a b st t).2.1 = st) :
    ∀ ms me a b (s : GameState B) tt,
      (searchLoopMax lib f ms me a b s tt).2.1 = s := by
  intro ms
  induction ms with
  | nil => intro me a b s tt; simp [searchLoopMax]
  | cons m ms ih =>
    intro me a b s tt
    simp only [searchLoopMax, hf, popGS_pushGS]
    split
    · rfl
    · exact ih _ _ _ _ _

lemma searchLoopMin_state (lib : ChessLib B M)
    (f : Score → Score → GameState B → TT → Score × GameState B × TT)
    (hf : ∀ a b st t, (f a b st t).2.1 = st) :
    ∀ ms me a b (s : GameState B) tt,
      (searchLoopMin lib f ms me a b s tt).2.1 = s := by
  intro ms
  induction ms with
  | nil => intro me a b s tt; simp [searchLoopMin]
  | cons m ms ih =>
    intro me a b s tt
    simp only [searchLoopMin, hf, popGS_pushGS]
    split
    · rfl
    · exact ih _ _ _ _ _

lemma minimax_state (lib : ChessLib B M) :
    ∀ (d : Nat) (s : GameState B) (a b : Score) (mx : Bool) (tt : TT),
      (minimax lib d s a b mx tt).2.1 = s := by
  intro d
  induction d with
  | zero =>
    intro s a b mx tt
    simp only [minimax]
    cases h : ttLookup tt (lib.fen s.pos, 0, mx) <;> simp [h]
  | succ d ih =>
    intro s a b mx tt
    simp only [minimax]
    cases h : ttLookup tt (lib.fen s.pos, d + 1, mx) with
    | some v => simp
    | none =>
      simp only
      split
      · rfl
      · split
        · exact searchLoopMax_state lib _ (fun a b st t => ih st a b false t)
            _ _ _ _ _ _
        · exact searchLoopMin_state lib _ (fun a b st t => ih st a b true t)
            _ _ _ _ _ _

lemma fbmLoop_state (lib : ChessLib B M) (d : Nat) :
    ∀ ms best bestVal a b (s : GameState B) tt,
      (fbmLoop lib d ms best bestVal a b s tt).2.1 = s := by
  intro ms
  induction ms with
  | nil => intro best bestVal a b s tt; simp [fbmLoop]
  | cons m ms ih =>
    intro best bestVal a b s tt
    simp only [fbmLoop, minimax_state, popGS_pushGS]
    split
    · exact ih _ _ _ _ _ _
    · exact ih _ _ _ _ _ _

lemma find_best_move_state (lib : ChessLib B M) (depth : Nat)
    (s : GameState B) (tt : TT) : (find_best_move lib depth s tt).2.1 = s :=
  fbmLoop_state lib _ _ _ _ _ _ _ _

/-- Claim C4: after any call of the Search Engine returns, the
GameState at that call site is identical to its pre-call state (every
pushed move is popped), and the same holds for the root driver.  The
embedded engine is total, so there is no failure path on which
restoration could be skipped. -/
theorem C4_state_restored (lib : ChessLib B M) (d : Nat) (s : GameState B)
    (a b : Score) (mx : Bool) (tt : TT) (depth : Nat) :
    (minimax lib d s a b mx tt).2.1 = s ∧
      (find_best_move lib depth s tt).2.1 = s :=
  ⟨minimax_state lib d s a b mx tt, find_best_move_state lib depth s tt⟩

/-- Claim C6: the Transposition Cache is consulted before the
terminal / depth check: a hit on the node key (fen, depth,
maximizing-flag) returns the stored value with no state change and no
table change, at every depth; and on every return path the returned
value is stored under the node key in the returned table. -/
theorem C6_cache_discipline (lib : ChessLib B M) (d : Nat)
    (s : GameState B) (a b : Score) (mx : Bool) (tt : TT) :
    (∀ v, ttLookup tt (lib.fen s.pos, d, mx) = some v →
        minimax lib d s a b mx tt = (v, s, tt)) ∧
      ttLookup (minimax lib d s a b mx tt).2.2 (lib.fen s.pos, d, mx) =
        some (minimax lib d s a b mx tt).1 := by
  constructor
  · intro v hv
    cases d with
    | zero => simp [minimax, hv]
    | succ d => simp [minimax, hv]
  · cases d with
    | zero =>
      simp only [minimax]
      cases h : ttLookup tt (lib.fen s.pos, 0, mx) with
      | some v => simpa using h
      | none => simp [ttLookup_store_self]
    | succ d =>
      simp only [minimax]
      cases h : ttLookup tt (lib.fen s.pos, d + 1, mx) with
      | some v => simpa using h
      | none =>
        simp only
        split
        · simp [ttLookup_store_self]
        · split
          · simp [ttLookup_store_self]
          · simp [ttLookup_store_self]

/-- Witness for C6 on a concrete input: a table that stores 42 under
the key of the toy root at depth 2 makes the search return 42
immediately, leaving state and table untouched. -/
theorem C6_cache_discipline_witness :
    ttLookup [((("p0" : String), 2, true), scoreOfInt 42)]
        (toyLib.fen 0, 2, true) = some (scoreOfInt 42) ∧
      minimax toyLib 2 ⟨0, []⟩ ⊥ ⊤ true
          [((("p0" : String), 2, true), scoreOfInt 42)] =
        (scoreOfInt 42, ⟨0, []⟩, [((("p0" : String), 2, true), scoreOfInt 42)]) :=
  ⟨by decide,
    (C6_cache_discipline toyLib 2 ⟨0, []⟩ ⊥ ⊤ true
      [((("p0" : String), 2, true), scoreOfInt 42)]).1 (scoreOfInt 42)
      (by decide)⟩

lemma searchLoopMax_tt_mono (lib : ChessLib B M)
    (f : Score → Score → GameState B → TT → Score × GameState B × TT)
    (hf : ∀ a b st t k v, ttLookup t k = some v →
      ttLookup (f a b st t).2.2 k = some v) :
    ∀ ms me a b (s : GameState B) tt k v, ttLookup tt k = some v →
      ttLookup (searchLoopMax lib f ms me a b s tt).2.2 k = some v := by
  intro ms
  induction ms with
  | nil => intro me a b s tt k v h; simpa [searchLoopMax] using h
  | cons m ms ih =>
    intro me a b s tt k v h
    simp only [searchLoopMax]
    split
    · exact hf _ _ _ _ _ _ h
    · exact ih _ _ _ _ _ _ _ (hf _ _ _ _ _ _ h)

lemma searchLoopMin_tt_mono (lib : ChessLib B M)
    (f : Score → Score → GameState B → TT → Score × GameState B × TT)
    (hf : ∀ a b st t k v, ttLookup t k = some v →
      ttLookup (f a b st t).2.2 k = some v) :
    ∀ ms me a b (s : GameState B) tt k v, ttLookup tt k = some v →
      ttLookup (searchLoopMin lib f ms me a b s tt).2.2 k = some v := by
  intro ms
  induction ms with
  | nil => intro me a b s tt k v h; simpa [searchLoopMin] using h
  | cons m ms ih =>
    intro me a b s tt k v h
    simp only [searchLoopMin]
    split
    · exact hf _ _ _ _ _ _ h
    · exact ih _ _ _ _ _ _ _ (hf _ _ _ _ _ _ h)

lemma ne_of_lookup_some_none {tt : TT} {k k' : CacheKey} {v : Score}
    (h : ttLookup tt k = some v) (h' : ttLookup tt k' = none) : k ≠ k' := by
  intro he
  rw [he, h'] at h
  exact Option.noConfusion h

lemma minimax_tt_mono (lib : ChessLib B M) :
    ∀ (d : Nat) (s : GameState B) (a b : Score) (mx : Bool) (tt : TT)
      (k : CacheKey) (v : Score), ttLookup tt k = some v →
      ttLookup (minimax lib d s a b mx tt).2.2 k = some v := by
  intro d
  induction d with
  | zero =>
    intro s a b mx tt k v h
    simp only [minimax]
    cases hk : ttLookup tt (lib.fen s.pos, 0, mx) with
    | some w => simpa using h
    | none =>
      have hne := ne_of_lookup_some_none h hk
      simpa [ttLookup_store_ne _ _ _ _ (Ne.symm hne)] using h
  | succ d ih =>
    intro s a b mx tt k v h
    simp only [minimax]
    cases hk : ttLookup tt (lib.fen s.pos, d + 1, mx) with
    | some w => simpa using h
    | none =>
      have hne := ne_of_lookup_some_none h hk
      simp only
      split
      · simpa [ttLookup_store_ne _ _ _ _ (Ne.symm hne)] using h
      · split
        · rw [ttLookup_store_ne _ _ _ _ (Ne.symm hne)]
          exact searchLoopMax_tt_mono lib _
            (fun a b st t k v hv => ih st a b false t k v hv) _ _ _ _ _ _ _ _ h
        · rw [ttLookup_store_ne _ _ _ _ (Ne.symm hne)]
          exact searchLoopMin_tt_mono lib _
            (fun a b st t k v hv => ih st a b true t k v hv) _ _ _ _ _ _ _ _ h

lemma fbmLoop_tt_mono (lib : ChessLib B M) (d : Nat) :
    ∀ ms best bestVal a b (s : GameState B) tt k v,
      ttLookup tt k = some v →
      ttLookup (fbmLoop lib d ms best bestVal a b s tt).2.2 k = some v := by
  intro ms
  induction ms with
  | nil => intro best bestVal a b s tt k v h; simpa [fbmLoop] using h
  | cons m ms ih =>
    intro best bestVal a b s tt k v h
    simp only [fbmLoop]
    split
    · exact ih _ _ _ _ _ _ _ _ (minimax_tt_mono lib _ _ _ _ _ _ _ _ h)
    · exact ih _ _ _ _ _ _ _ _ (minimax_tt_mono lib _ _ _ _ _ _ _ _ h)

/-- Claim C7: the Transposition Cache grows monotonically: once a key
maps to a value, every later lookup of that key, after any further
`minimax` or `find_best_move` call (within one search or across
successive searches), yields that same value. -/
theorem C7_cache_monotone (lib : ChessLib B M) (d : Nat) (s : GameState B)
    (a b : Score) (mx : Bool) (tt : TT) (k : CacheKey) (v : Score)
    (depth : Nat) (h : ttLookup tt k = some v) :
    ttLookup (minimax lib d s a b mx tt).2.2 k = some v ∧
      ttLookup (find_best_move lib depth s tt).2.2 k = some v :=
  ⟨minimax_tt_mono lib d s a b mx tt k v h,
    fbmLoop_tt_mono lib _ _ _ _ _ _ _ _ _ _ h⟩

/-- Witness for C7 on a concrete input: a pre-existing binding
survives a depth-2 search and a depth-3 move selection of the toy
game. -/
theorem C7_cache_monotone_witness :
    ttLookup [((("z9" : String), 9, true), scoreOfInt 7)]
        (("z9" : String), 9, true) = some (scoreOfInt 7) ∧
      ttLookup (minimax toyLib 2 ⟨0, []⟩ ⊥ ⊤ true
          [((("z9" : String), 9, true), scoreOfInt 7)]).2.2
        (("z9" : String), 9, true) = some (scoreOfInt 7) ∧
      ttLookup (find_best_move toyLib 3 ⟨0, []⟩
          [((("z9" : String), 9, true), scoreOfInt 7)]).2.2
        (("z9" : String), 9, true) = some (scoreOfInt 7) :=
  ⟨by decide,
    (C7_cache_monotone toyLib 2 ⟨0, []⟩ ⊥ ⊤ true _ _ _ 3 (by decide)).1,
    (C7_cache_monotone toyLib 2 ⟨0, []⟩ ⊥ ⊤ true _ _ _ 3 (by decide)).2⟩

lemma foldl_add_eq_sum (f : Nat → ℤ) (l : List Nat) :
    ∀ a : ℤ, l.foldl (fun sc sq => sc + f sq) a = a + (l.map f).sum := by
  induction l with
  | nil => intro a; simp
  | cons x l ih => intro a; simp [ih, add_assoc]

lemma range_foldl_eq_sum (f : Nat → ℤ) (n : Nat) :
    (List.range n).foldl (fun sc sq => sc + f sq) 0 =
      ∑ sq ∈ Finset.range n, f sq := by
  induction n with
  | zero => simp
  | succ n ih =>
    rw [Finset.sum_range_succ, ← ih, List.range_succ, List.foldl_append]
    simp [foldl_add_eq_sum]

lemma matBal_eq_sum (lib : ChessLib B M) (b : B) :
    matBal lib b = ∑ sq ∈ Finset.range 64, square_contrib lib b sq := by
  rw [matBal, SQUARES, range_foldl_eq_sum]

/-- Claim C3: the Position Evaluator returns the negative sentinel for
checkmate with White to move and the positive sentinel for checkmate
with Black to move; zero on stalemate or insufficient material;
otherwise the material balance, the sum over the 64 squares of the
fixed piece value (pawn 1, knight 3, bishop 3, rook 5, queen 9,
king 0), added for White pieces and subtracted for Black pieces. -/
theorem C3_evaluator (lib : ChessLib B M) (b : B) :
    (lib.is_checkmate b = true →
        evaluate_board lib b = (if lib.turn b then (⊥ : Score) else ⊤)) ∧
      (lib.is_checkmate b = false →
        (lib.is_stalemate b = true ∨ lib.is_insufficient_material b = true) →
        evaluate_board lib b = scoreOfInt 0) ∧
      (lib.is_checkmate b = false → lib.is_stalemate b = false →
        lib.is_insufficient_material b = false →
        evaluate_board lib b =
          scoreOfInt (∑ sq ∈ Finset.range 64, square_contrib lib b sq)) ∧
      piece_values .pawn = 1 ∧ piece_values .knight = 3 ∧
      piece_values .bishop = 3 ∧ piece_values .rook = 5 ∧
      piece_values .queen = 9 ∧ piece_values .king = 0 := by
  refine ⟨?_, ?_, ?_, rfl, rfl, rfl, rfl, rfl, rfl⟩
  · intro h
    simp [evaluate_board, h]
  · rintro h (h' | h') <;> simp [evaluate_board, h, h']
  · intro h h' h''
    simp [evaluate_board, h, h', h'', matBal_eq_sum]

/-- Witness for C3 on concrete inputs: the checkmate, the stalemate
and the material branch, each evaluated on a toy position. -/
theorem C3_evaluator_witness :
    evaluate_board mateLib 2 = (⊤ : Score) ∧
      evaluate_board mateLib 3 = scoreOfInt 0 ∧
      evaluate_board toyLib 5 = scoreOfInt 10 := by
  refine ⟨?_, ?_, ?_⟩
  · rw [(C3_evaluator mateLib 2).1 (by decide)]
    decide
  · exact (C3_evaluator mateLib 3).2.1 (by decide) (Or.inl (by decide))
  · rw [(C3_evaluator toyLib 5).2.2.1 (by decide) (by decide) (by decide)]
    decide

/-- Claim C5: the Move Orderer returns all currently-legal moves (a
permutation of the legal-move list), sorted in descending order of
the heuristic score, which is 10 times the value of the piece on the
destination square minus the value of the moving piece for a capture
(0 otherwise), plus 8 for a promotion and plus 5 for a checking
move.  Scoring is a pure function of the unmodified board. -/
theorem C5_move_ordering (lib : ChessLib B M) (b : B) :
    (order_moves lib b).Perm (lib.legal_moves b) ∧
      (order_moves lib b).Pairwise
        (fun a c => score_move lib b c ≤ score_move lib b a) ∧
      ∀ m, score_move lib b m =
        (if lib.is_capture b m then
            10 * (match lib.piece_at b (lib.to_square m) with
                  | some p => piece_values p.ptype
                  | none => 0)
              - (match lib.piece_at b (lib.from_square m) with
                  | some p => piece_values p.ptype
                  | none => 0)
          else 0)
        + (if (lib.promotion m).isSome then 8 else 0)
        + (if lib.gives_check b m then 5 else 0) := by
  haveI : IsTotal M (fun a c => score_move lib b c ≤ score_move lib b a) :=
    ⟨fun x y => le_total (score_move lib b y) (score_move lib b x)⟩
  haveI : IsTrans M (fun a c => score_move lib b c ≤ score_move lib b a) :=
    ⟨fun _ _ _ hxy hyz => le_trans hyz hxy⟩
  exact ⟨List.perm_insertionSort _ _, List.sorted_insertionSort _ _,
    fun m => rfl⟩

lemma square_contrib_congr (lib : ChessLib B M) {b₁ b₂ : B} (sq : Nat)
    (hp : lib.piece_at b₁ sq = lib.piece_at b₂ sq) :
    square_contrib lib b₁ sq = square_contrib lib b₂ sq := by
  simp [square_contrib, hp]

lemma foldl_contrib_congr (lib : ChessLib B M) {b₁ b₂ : B} :
    ∀ (l : List Nat) (a : ℤ),
      (∀ sq ∈ l, lib.piece_at b₁ sq = lib.piece_at b₂ sq) →
      l.foldl (fun sc sq => sc + square_contrib lib b₁ sq) a =
        l.foldl (fun sc sq => sc + square_contrib lib b₂ sq) a := by
  intro l
  induction l with
  | nil => intro a _; rfl
  | cons x l ih =>
    intro a hp
    simp only [List.foldl_cons]
    rw [square_contrib_congr lib x (hp x (by simp))]
    exact ih _ fun sq hsq => hp sq (by simp [hsq])

/-- Claim C8: the Position Evaluator is pure: its result is determined
by the observations it makes of the GameState (the terminal and draw
predicates, the side to move and the per-square piece lookup over the
64 squares), so two evaluations of the same state yield the same
score, and it makes no mutating call. -/
theorem C8_evaluator_pure (lib : ChessLib B M) (b₁ b₂ : B)
    (hcm : lib.is_checkmate b₁ = lib.is_checkmate b₂)
    (ht : lib.turn b₁ = lib.turn b₂)
    (hst : lib.is_stalemate b₁ = lib.is_stalemate b₂)
    (him : lib.is_insufficient_material b₁ = lib.is_insufficient_material b₂)
    (hp : ∀ sq ∈ SQUARES, lib.piece_at b₁ sq = lib.piece_at b₂ sq) :
    evaluate_board lib b₁ = evaluate_board lib b₂ := by
  have hm : matBal lib b₁ = matBal lib b₂ :=
    foldl_contrib_congr lib SQUARES 0 hp
  simp [evaluate_board, hcm, ht, hst, him, hm]

/-- Witness for C8 on a concrete input: positions 5 and 6 of the toy
game answer every evaluator query identically, so they evaluate to the
same score. -/
theorem C8_evaluator_pure_witness :
    evaluate_board toyLib 5 = evaluate_board toyLib 6 :=
  C8_evaluator_pure toyLib 5 6 (by decide) (by decide) (by decide)
    (by decide) (by decide)

/-- Counterexample to claim C2: in the second toy game Black has the
legal move 0 -> 1, but the single reply 1 -> 2 reaches a position
where Black is checkmated, so every root value is the positive
sentinel; the strict-improvement test `val < best_val` with
`best_val = +inf` never fires and the Move Selector returns the
no-move signal even though a legal move exists. -/
theorem C2_counterexample :
    mateLib.legal_moves 0 = [1] ∧
      (find_best_move mateLib 2 ⟨0, []⟩ []).1 = none := by
  constructor
  · rfl
  · decide

lemma fbmLoop_mem (lib : ChessLib B M) (d : Nat) :
    ∀ ms best bestVal a b (s : GameState B) tt (m : M),
      (fbmLoop lib d ms best bestVal a b s tt).1 = some m →
      m ∈ ms ∨ best = some m := by
  intro ms
  induction ms with
  | nil =>
    intro best bestVal a b s tt m h
    simp only [fbmLoop] at h
    exact Or.inr h
  | cons m' ms ih =>
    intro best bestVal a b s tt m h
    simp only [fbmLoop] at h
    split at h
    · rcases ih _ _ _ _ _ _ _ h with hm | hm
      · exact Or.inl (List.mem_cons_of_mem _ hm)
      · exact Or.inl (by simp [Option.some_inj.1 hm])
    · rcases ih _ _ _ _ _ _ _ h with hm | hm
      · exact Or.inl (List.mem_cons_of_mem _ hm)
      · exact Or.inr hm

/-- Claim C2 as amended: the Move Selector returns the no-move signal
whenever the position has no legal moves, and any move it returns is
one of the legal moves of the root position; but (per the
counterexample) it can also return the no-move signal when legal
moves exist, namely when every root value equals the positive
sentinel. -/
theorem C2_amended (lib : ChessLib B M) (depth : Nat) (s : GameState B)
    (tt : TT) :
    (lib.legal_moves s.pos = [] → (find_best_move lib depth s tt).1 = none) ∧
      ∀ m, (find_best_move lib depth s tt).1 = some m →
        m ∈ lib.legal_moves s.pos := by
  constructor
  · intro h
    rw [find_best_move, order_moves, h]
    rfl
  · intro m h
    rcases fbmLoop_mem lib _ _ _ _ _ _ _ _ _ h with hm | hm
    · exact ((List.perm_insertionSort _ _).mem_iff).1 hm
    · exact Option.noConfusion hm

/-- Witness for C2 as amended, on concrete inputs: a toy position with
no legal moves yields the no-move signal, and the depth-1 selection at
the toy root yields one of its legal moves. -/
theorem C2_amended_witness :
    (find_best_move toyLib 1 ⟨9, []⟩ []).1 = none ∧
      1 ∈ toyLib.legal_moves 0 :=
  ⟨(C2_amended toyLib 1 ⟨9, []⟩ []).1 (by decide),
    (C2_amended toyLib 1 ⟨0, []⟩ []).2 1 (by decide)⟩

/-- Counterexample to claim C1: in the first toy game at depth 3 with
an empty table, move 0 -> 2 transposes into the position 4 already
searched (and cut off) inside the subtree of move 0 -> 1; the table
entry for position 4 at depth 1 is the cutoff bound 10, not its exact
value 0, and reusing it makes the pruning-and-caching search keep
move 1, while the unpruned, uncached full minimax over the same move
ordering chooses move 2. -/
theorem C1_counterexample :
    (find_best_move toyLib 3 ⟨0, []⟩ []).1 = some 1 ∧
      plain_best_move toyLib 3 0 = some 2 := by
  constructor
  · decide
  · decide

lemma KMrel_refl (alpha beta r : Score) : KMrel alpha beta r r :=
  ⟨fun _ => le_refl r, fun _ => le_refl r, fun _ _ => rfl⟩

lemma le_foldl_max (g : M → Score) :
    ∀ (l : List M) (a : Score), a ≤ l.foldl (fun acc m => max acc (g m)) a := by
  intro l
  induction l with
  | nil => intro a; exact le_refl a
  | cons m l ih =>
    intro a
    exact le_trans (le_max_left a (g m)) (ih (max a (g m)))

lemma foldl_min_le (g : M → Score) :
    ∀ (l : List M) (a : Score), l.foldl (fun acc m => min acc (g m)) a ≤ a := by
  intro l
  induction l with
  | nil => intro a; exact le_refl a
  | cons m l ih =>
    intro a
    exact le_trans (ih (min a (g m))) (min_le_left a (g m))

lemma abLoopMax_KM (g : M → Score) (f : Score → Score → M → Score)
    (alpha beta : Score) (hab : alpha < beta)
    (hf : ∀ a b m, a < b → KMrel a b (f a b m) (g m)) :
    ∀ (ms : List M) (me P a0 : Score), a0 = max alpha me → a0 < beta →
      KMrel alpha beta me P →
      KMrel alpha beta (abLoopMax f ms me a0 beta)
        (ms.foldl (fun acc m => max acc (g m)) P) := by
  intro ms
  induction ms with
  | nil => intro me P a0 _ _ hR; exact hR
  | cons m ms ih =>
    intro me P a0 ha0 ha0b hR
    simp only [abLoopMax, List.foldl_cons]
    have KMc := hf a0 beta m ha0b
    by_cases hbr : beta ≤ max a0 (f a0 beta m)
    · rw [if_pos hbr]
      have hbv : beta ≤ f a0 beta m := by
        rcases le_max_iff.mp hbr with h | h
        · exact absurd h (not_le.mpr ha0b)
        · exact h
      have hvw : f a0 beta m ≤ g m := KMc.2.1 hbv
      have hgF : max P (g m) ≤
          ms.foldl (fun acc m => max acc (g m)) (max P (g m)) :=
        le_foldl_max g ms _
      refine ⟨?_, ?_, ?_⟩
      · intro h1
        have : beta ≤ alpha :=
          le_trans hbv (le_trans (le_max_right me _) h1)
        exact absurd this (not_le.mpr hab)
      · intro _
        refine max_le ?_ ?_
        · rcases le_or_lt me alpha with h1 | h1
          · exact le_trans (le_of_lt (lt_of_le_of_lt h1 hab))
              (le_trans hbv (le_trans hvw
                (le_trans (le_max_right P _) hgF)))
          · rcases lt_or_le me beta with h2 | h2
            · rw [hR.2.2 h1 h2]
              exact le_trans (le_max_left P _) hgF
            · exact le_trans (hR.2.1 h2) (le_trans (le_max_left P _) hgF)
        · exact le_trans hvw (le_trans (le_max_right P _) hgF)
      · intro _ h2
        have : beta ≤ max me (f a0 beta m) :=
          le_trans hbv (le_max_right me _)
        exact absurd h2 (not_lt.mpr this)
    · rw [if_neg hbr]
      have ha0b' : max a0 (f a0 beta m) < beta := not_le.mp hbr
      have hvb : f a0 beta m < beta :=
        lt_of_le_of_lt (le_max_right a0 _) ha0b'
      refine ih (max me (f a0 beta m)) (max P (g m)) (max a0 (f a0 beta m))
        ?_ ha0b' ?_
      · rw [ha0, max_assoc]
      · refine ⟨?_, ?_, ?_⟩
        · intro h1
          have hme : me ≤ alpha := le_trans (le_max_left me _) h1
          have hv : f a0 beta m ≤ alpha := le_trans (le_max_right me _) h1
          have halpha : alpha ≤ a0 := le_trans (le_max_left alpha me) ha0.ge
          have hva0 : f a0 beta m ≤ a0 := le_trans hv halpha
          have hw : g m ≤ f a0 beta m := KMc.1 hva0
          exact max_le (le_trans (hR.1 hme) (le_max_left me _))
            (le_trans hw (le_max_right me _))
        · intro h2
          have hbme : beta ≤ me := by
            rcases le_max_iff.mp h2 with h | h
            · exact h
            · exact absurd h (not_le.mpr hvb)
          have hvme : f a0 beta m ≤ me :=
            le_of_lt (lt_of_lt_of_le hvb hbme)
          rw [max_eq_left hvme]
          exact le_trans (hR.2.1 hbme) (le_max_left P _)
        · intro h3 h4
          rcases le_or_lt (f a0 beta m) me with hvme | hmev
          · rw [max_eq_left hvme] at h3 h4 ⊢
            have hmeP : me = P := hR.2.2 h3 h4
            have hwme : g m ≤ me := by
              rcases le_or_lt (f a0 beta m) a0 with hva0 | ha0v
              · exact le_trans (KMc.1 hva0) hvme
              · exact (KMc.2.2 ha0v hvb) ▸ hvme
            rw [← hmeP]
            exact (max_eq_left hwme).symm
          · rw [max_eq_right (le_of_lt hmev)] at h3 h4 ⊢
            have ha0v : a0 < f a0 beta m := ha0.trans_lt (max_lt h3 hmev)
            have hvw : f a0 beta m = g m := KMc.2.2 ha0v h4
            have hPv : P ≤ f a0 beta m := by
              rcases le_or_lt me alpha with h5 | h5
              · exact le_trans (hR.1 h5) (le_of_lt hmev)
              · rcases lt_or_le me beta with h6 | h6
                · exact (hR.2.2 h5 h6) ▸ le_of_lt hmev
                · exact absurd h6 (not_le.mpr (lt_trans hmev h4))
            rw [hvw] at hPv ⊢
            exact (max_eq_right hPv).symm

lemma abLoopMin_KM (g : M → Score) (f : Score → Score → M → Score)
    (alpha beta : Score) (hab : alpha < beta)
    (hf : ∀ a b m, a < b → KMrel a b (f a b m) (g m)) :
    ∀ (ms : List M) (me P b0 : Score), b0 = min beta me → alpha < b0 →
      KMrel alpha beta me P →
      KMrel alpha beta (abLoopMin f ms me alpha b0)
        (ms.foldl (fun acc m => min acc (g m)) P) := by
  intro ms
  induction ms with
  | nil => intro me P b0 _ _ hR; exact hR
  | cons m ms ih =>
    intro me P b0 hb0 hab0 hR
    simp only [abLoopMin, List.foldl_cons]
    have KMc := hf alpha b0 m hab0
    by_cases hbr : min b0 (f alpha b0 m) ≤ alpha
    · rw [if_pos hbr]
      have hva : f alpha b0 m ≤ alpha := by
        rcases min_le_iff.mp hbr with h | h
        · exact absurd h (not_le.mpr hab0)
        · exact h
      have hwv : g m ≤ f alpha b0 m := KMc.1 hva
      have hFg : ms.foldl (fun acc m => min acc (g m)) (min P (g m)) ≤
          min P (g m) :=
        foldl_min_le g ms _
      refine ⟨?_, ?_, ?_⟩
      · intro _
        refine le_min ?_ ?_
        · rcases lt_or_le alpha me with h1 | h1
          · rcases lt_or_le me beta with h2 | h2
            · rw [hR.2.2 h1 h2]
              exact le_trans hFg (min_le_left P _)
            · have hgme : g m ≤ me :=
                le_trans hwv
                  (le_trans hva (le_of_lt (lt_of_lt_of_le hab h2)))
              exact le_trans (le_trans hFg (min_le_right P _)) hgme
          · exact le_trans (le_trans hFg (min_le_left P _)) (hR.1 h1)
        · exact le_trans hFg (le_trans (min_le_right P _) hwv)
      · intro h2
        have : beta ≤ alpha :=
          le_trans h2 (le_trans (min_le_right me _) hva)
        exact absurd this (not_le.mpr hab)
      · intro h3 _
        have : min me (f alpha b0 m) ≤ alpha :=
          le_trans (min_le_right me _) hva
        exact absurd h3 (not_lt.mpr this)
    · rw [if_neg hbr]
      have hab0' : alpha < min b0 (f alpha b0 m) := not_le.mp hbr
      have hav : alpha < f alpha b0 m :=
        lt_of_lt_of_le hab0' (min_le_right b0 _)
      refine ih (min me (f alpha b0 m)) (min P (g m)) (min b0 (f alpha b0 m))
        ?_ hab0' ?_
      · rw [hb0, min_assoc]
      · refine ⟨?_, ?_, ?_⟩
        · intro h1
          have hme : me ≤ alpha := by
            rcases min_le_iff.mp h1 with h | h
            · exact h
            · exact absurd h (not_le.mpr hav)
          have hmev : me ≤ f alpha b0 m :=
            le_of_lt (lt_of_le_of_lt hme hav)
          rw [min_eq_left hmev]
          exact le_trans (min_le_left P _) (hR.1 hme)
        · intro h2
          have hbme : beta ≤ me := le_trans h2 (min_le_left me _)
          have hbv : beta ≤ f alpha b0 m := le_trans h2 (min_le_right me _)
          have hb0v : b0 ≤ f alpha b0 m := by
            have hb0beta : b0 ≤ beta := le_trans hb0.le (min_le_left beta me)
            exact le_trans hb0beta hbv
          have hvw : f alpha b0 m ≤ g m := KMc.2.1 hb0v
          refine le_min ?_ ?_
          · exact le_trans (min_le_left me _) (hR.2.1 hbme)
          · exact le_trans (min_le_right me _) hvw
        · intro h3 h4
          rcases le_or_lt me (f alpha b0 m) with hmev | hvme
          · rw [min_eq_left hmev] at h3 h4 ⊢
            have hmeP : me = P := hR.2.2 h3 h4
            have hmew : me ≤ g m := by
              rcases le_or_lt b0 (f alpha b0 m) with hb0v | hvb0
              · exact le_trans hmev (KMc.2.1 hb0v)
              · exact (KMc.2.2 hav hvb0) ▸ hmev
            rw [← hmeP]
            exact (min_eq_left hmew).symm
          · rw [min_eq_right (le_of_lt hvme)] at h3 h4 ⊢
            have hvb0 : f alpha b0 m < b0 :=
              lt_of_lt_of_eq (lt_min h4 hvme) hb0.symm
            have hvw : f alpha b0 m = g m := KMc.2.2 hav hvb0
            have hvP : f alpha b0 m ≤ P := by
              rcases lt_or_le alpha me with h5 | h5
              · rcases lt_or_le me beta with h6 | h6
                · exact (hR.2.2 h5 h6) ▸ le_of_lt hvme
                · exact le_trans (le_of_lt hvme) (hR.2.1 h6)
              · exact absurd (lt_trans h3 hvme) (not_lt.mpr h5)
            rw [hvw] at hvP ⊢
            exact (min_eq_right hvP).symm

lemma minimaxNoCache_KM (lib : ChessLib B M) :
    ∀ (d : Nat) (b : B) (alpha beta : Score), alpha < beta →
      KMrel alpha beta (minimaxNoCache lib d b alpha beta true)
        (plainMinimax lib d b true) ∧
      KMrel alpha beta (minimaxNoCache lib d b alpha beta false)
        (plainMinimax lib d b false) := by
  intro d
  induction d with
  | zero =>
    intro b alpha beta _
    exact ⟨KMrel_refl _ _ _, KMrel_refl _ _ _⟩
  | succ d ih =>
    intro b alpha beta hab
    by_cases hover : lib.is_game_over b
    · simp only [minimaxNoCache, plainMinimax, hover, if_true]
      exact ⟨KMrel_refl _ _ _, KMrel_refl _ _ _⟩
    · constructor
      · simp only [minimaxNoCache, plainMinimax, hover, if_false, if_true]
        exact abLoopMax_KM (fun m => plainMinimax lib d (lib.push b m) false)
          (fun a bt m => minimaxNoCache lib d (lib.push b m) a bt false)
          alpha beta hab
          (fun a bt m h => (ih (lib.push b m) a bt h).2)
          (order_moves lib b) ⊥ ⊥ alpha (max_eq_left bot_le).symm hab
          (KMrel_refl _ _ _)
      · simp only [minimaxNoCache, plainMinimax, hover, if_false]
        exact abLoopMin_KM (fun m => plainMinimax lib d (lib.push b m) true)
          (fun a bt m => minimaxNoCache lib d (lib.push b m) a bt true)
          alpha beta hab
          (fun a bt m h => (ih (lib.push b m) a bt h).1)
          (order_moves lib b) ⊤ ⊤ beta (min_eq_left le_top).symm hab
          (KMrel_refl _ _ _)

lemma nbmLoop_eq_pbmLoop (lib : ChessLib B M) (d : Nat) (b : B) :
    ∀ (ms : List M) (best : Option M) (bestVal : Score),
      nbmLoop lib d b ms best bestVal bestVal =
        pbmLoop lib d b ms best bestVal := by
  intro ms
  induction ms with
  | nil => intro best bestVal; rfl
  | cons m ms ih =>
    intro best bestVal
    simp only [nbmLoop, pbmLoop]
    rcases (bot_le : (⊥ : Score) ≤ bestVal).lt_or_eq with hlt | heq
    · have KM := (minimaxNoCache_KM lib d (lib.push b m) ⊥ bestVal hlt).1
      by_cases hvb : minimaxNoCache lib d (lib.push b m) ⊥ bestVal true < bestVal
      · have hveq : minimaxNoCache lib d (lib.push b m) ⊥ bestVal true =
            plainMinimax lib d (lib.push b m) true := by
          rcases (bot_le :
              (⊥ : Score) ≤ minimaxNoCache lib d (lib.push b m) ⊥ bestVal
                true).lt_or_eq with h1 | h1
          · exact KM.2.2 h1 hvb
          · exact le_antisymm (h1 ▸ bot_le) (KM.1 (le_of_eq h1.symm))
        rw [if_pos hvb, if_pos (hveq ▸ hvb), min_eq_right (le_of_lt hvb),
          hveq]
        exact ih (some m) _
      · have hwb : ¬ plainMinimax lib d (lib.push b m) true < bestVal := by
          have h1 := not_lt.mp hvb
          exact not_lt.mpr (le_trans h1 (KM.2.1 h1))
        rw [if_neg hvb, if_neg hwb]
        exact ih best bestVal
    · rw [← heq, if_neg (not_lt_bot), if_neg (not_lt_bot)]
      exact ih best ⊥

/-- Claim C1 as amended: with the transposition cache disabled (every
lookup misses and nothing is stored) the alpha-beta root search
selects exactly the move of the unpruned full minimax at the same
depth over the same move ordering — pruning alone never changes the
selected move; the counterexample shows that with the shared cache
the selected move can change, because cutoff bounds are stored under
keys that carry no exact-or-bound flag and are later reused as exact
values. -/
theorem C1_amended (lib : ChessLib B M) (depth : Nat) (b : B) :
    find_best_move_nocache lib depth b = plain_best_move lib depth b := by
  rw [find_best_move_nocache, plain_best_move]
  exact nbmLoop_eq_pbmLoop lib (depth - 1) b (order_moves lib b) none ⊤

lemma evaluate_board_material (lib : ChessLib B M) (b : B)
    (h1 : lib.is_checkmate b = false) (h2 : lib.is_stalemate b = false)
    (h3 : lib.is_insufficient_material b = false) :
    evaluate_board lib b = scoreOfInt (matBal lib b) := by
  simp [evaluate_board, h1, h2, h3]

lemma scoreOfInt_lt_top (n : ℤ) : scoreOfInt n < (⊤ : Score) :=
  WithBot.coe_lt_coe.mpr (WithTop.coe_lt_top n)

lemma scoreOfInt_le_scoreOfInt {a b : ℤ} :
    scoreOfInt a ≤ scoreOfInt b ↔ a ≤ b := by
  rw [scoreOfInt, scoreOfInt, WithBot.coe_le_coe, WithTop.coe_le_coe]

lemma fbmLoop_zero_eq (lib : ChessLib B M) :
    ∀ (ms : List M) (best : Option M) (bestVal a b : Score)
      (s : GameState B) (tt : TT),
      (∀ m ∈ ms, ttLookup tt (lib.fen (lib.push s.pos m), 0, true) = none) →
      ms.Pairwise (fun m m' =>
        lib.fen (lib.push s.pos m) ≠ lib.fen (lib.push s.pos m')) →
      (fbmLoop lib 0 ms best bestVal a b s tt).1 =
        pbmLoop lib 0 s.pos ms best bestVal := by
  intro ms
  induction ms with
  | nil => intro best bestVal a b s tt _ _; rfl
  | cons m ms ih =>
    intro best bestVal a b s tt hmiss hpair
    have hkey : ttLookup tt (lib.fen (lib.push s.pos m), 0, true) = none :=
      hmiss m (List.mem_cons_self m ms)
    have hmm : minimax lib 0 (pushGS lib s m) a b true tt =
        (evaluate_board lib (lib.push s.pos m), pushGS lib s m,
          ttStore tt (lib.fen (lib.push s.pos m), 0, true)
            (evaluate_board lib (lib.push s.pos m))) := by
      simp [minimax, pushGS, hkey]
    have hpc := List.pairwise_cons.mp hpair
    have hmiss' : ∀ m' ∈ ms,
        ttLookup (ttStore tt (lib.fen (lib.push s.pos m), 0, true)
            (evaluate_board lib (lib.push s.pos m)))
          (lib.fen (lib.push s.pos m'), 0, true) = none := by
      intro m' hm'
      rw [ttLookup_store_ne]
      · exact hmiss m' (List.mem_cons_of_mem m hm')
      · intro h
        exact hpc.1 m' hm' (congrArg Prod.fst h)
    simp only [fbmLoop, pbmLoop, hmm, popGS_pushGS, plainMinimax]
    by_cases hc : evaluate_board lib (lib.push s.pos m) < bestVal
    · rw [if_pos hc, if_pos hc]
      exact ih _ _ _ _ _ _ hmiss' hpc.2
    · rw [if_neg hc, if_neg hc]
      exact ih _ _ _ _ _ _ hmiss' hpc.2

lemma pbmLoop_spec (lib : ChessLib B M) (d : Nat) (b : B) :
    ∀ (ms : List M) (best : Option M) (bestVal : Score),
      (pbmLoop lib d b ms best bestVal = best ∧
        ∀ m ∈ ms, bestVal ≤ plainMinimax lib d (lib.push b m) true) ∨
      (∃ m ∈ ms, pbmLoop lib d b ms best bestVal = some m ∧
        plainMinimax lib d (lib.push b m) true < bestVal ∧
        ∀ m' ∈ ms, plainMinimax lib d (lib.push b m) true ≤
          plainMinimax lib d (lib.push b m') true) := by
  intro ms
  induction ms with
  | nil =>
    intro best bestVal
    exact Or.inl ⟨rfl, by simp⟩
  | cons m ms ih =>
    intro best bestVal
    simp only [pbmLoop]
    by_cases hc : plainMinimax lib d (lib.push b m) true < bestVal
    · rw [if_pos hc]
      rcases ih (some m) (plainMinimax lib d (lib.push b m) true) with
        ⟨heq, hall⟩ | ⟨m'', hm'', heq, hlt, hmin⟩
      · refine Or.inr ⟨m, List.mem_cons_self m ms, heq, hc, ?_⟩
        intro m' hm'
        rcases List.mem_cons.mp hm' with h | h
        · exact h ▸ le_refl _
        · exact hall m' h
      · refine Or.inr ⟨m'', List.mem_cons_of_mem m hm'', heq,
          lt_trans hlt hc, ?_⟩
        intro m' hm'
        rcases List.mem_cons.mp hm' with h | h
        · exact h ▸ le_of_lt hlt
        · exact hmin m' h
    · rw [if_neg hc]
      rcases ih best bestVal with ⟨heq, hall⟩ | ⟨m'', hm'', heq, hlt, hmin⟩
      · refine Or.inl ⟨heq, ?_⟩
        intro m' hm'
        rcases List.mem_cons.mp hm' with h | h
        · exact h ▸ not_lt.mp hc
        · exact hall m' h
      · refine Or.inr ⟨m'', List.mem_cons_of_mem m hm'', heq, hlt, ?_⟩
        intro m' hm'
        rcases List.mem_cons.mp hm' with h | h
        · exact h ▸ le_trans (le_of_lt hlt) (not_lt.mp hc)
        · exact hmin m' h

/-- Claim C9: at depth 1, from a position with at least one legal
move where no single reply reaches a checkmate, stalemate or
insufficient-material position (as after any White first move from
the standard starting position) and where the replies have pairwise
distinct canonical encodings, the Move Selector started on an empty
table returns one of the legal replies, and the chosen reply
minimizes the material balance of the resulting position — its score
is exactly that material balance. -/
theorem C9_depth_one_selection (lib : ChessLib B M) (s : GameState B)
    (hne : lib.legal_moves s.pos ≠ [])
    (hterm : ∀ m ∈ lib.legal_moves s.pos,
      lib.is_checkmate (lib.push s.pos m) = false ∧
      lib.is_stalemate (lib.push s.pos m) = false ∧
      lib.is_insufficient_material (lib.push s.pos m) = false)
    (hfen : (lib.legal_moves s.pos).Pairwise (fun m m' =>
      lib.fen (lib.push s.pos m) ≠ lib.fen (lib.push s.pos m'))) :
    ∃ m, (find_best_move lib 1 s []).1 = some m ∧
      m ∈ lib.legal_moves s.pos ∧
      (minimax lib 0 (pushGS lib s m) ⊥ ⊤ true []).1 =
        scoreOfInt (matBal lib (lib.push s.pos m)) ∧
      ∀ m' ∈ lib.legal_moves s.pos,
        matBal lib (lib.push s.pos m) ≤ matBal lib (lib.push s.pos m') := by
  have hperm : (order_moves lib s.pos).Perm (lib.legal_moves s.pos) :=
    List.perm_insertionSort _ _
  have hfen' : (order_moves lib s.pos).Pairwise (fun m m' =>
      lib.fen (lib.push s.pos m) ≠ lib.fen (lib.push s.pos m')) :=
    (hperm.pairwise_iff fun h => Ne.symm h).mpr hfen
  have hsel : (find_best_move lib 1 s []).1 =
      pbmLoop lib 0 s.pos (order_moves lib s.pos) none ⊤ :=
    fbmLoop_zero_eq lib (order_moves lib s.pos) none ⊤ ⊥ ⊤ s []
      (fun _ _ => rfl) hfen'
  have hmemo : ∀ m, m ∈ order_moves lib s.pos ↔ m ∈ lib.legal_moves s.pos :=
    fun m => hperm.mem_iff
  have hgm : ∀ m ∈ lib.legal_moves s.pos,
      plainMinimax lib 0 (lib.push s.pos m) true =
        scoreOfInt (matBal lib (lib.push s.pos m)) := by
    intro m hm
    exact evaluate_board_material lib _ (hterm m hm).1 (hterm m hm).2.1
      (hterm m hm).2.2
  rcases pbmLoop_spec lib 0 s.pos (order_moves lib s.pos) none ⊤ with
    ⟨_, hall⟩ | ⟨m, hm, heq, _, hmin⟩
  · exfalso
    have hone : order_moves lib s.pos ≠ [] := by
      intro h
      apply hne
      have := hperm.length_eq
      rw [h] at this
      exact List.length_eq_zero.mp this.symm
    obtain ⟨m0, hm0⟩ := List.exists_mem_of_ne_nil _ hone
    have h1 := hall m0 hm0
    rw [hgm m0 ((hmemo m0).mp hm0)] at h1
    exact absurd (lt_of_lt_of_le (scoreOfInt_lt_top _) h1) (lt_irrefl _)
  · refine ⟨m, hsel.trans heq, (hmemo m).mp hm, ?_, ?_⟩
    · have hval : (minimax lib 0 (pushGS lib s m) ⊥ ⊤ true []).1 =
          evaluate_board lib (lib.push s.pos m) := by
        simp [minimax, pushGS, ttLookup]
      rw [hval]
      exact evaluate_board_material lib _ (hterm m ((hmemo m).mp hm)).1
        (hterm m ((hmemo m).mp hm)).2.1 (hterm m ((hmemo m).mp hm)).2.2
    · intro m' hm'
      have h2 := hmin m' ((hmemo m').mpr hm')
      rw [hgm m ((hmemo m).mp hm), hgm m' hm'] at h2
      exact scoreOfInt_le_scoreOfInt.mp h2

/-- Witness for C9 on a concrete input: the toy root has the two
legal replies 1 and 2, both reaching non-terminal positions with
distinct encodings, so the depth-1 selection returns a legal
material-minimizing reply. -/
theorem C9_depth_one_selection_witness :
    ∃ m, (find_best_move toyLib 1 ⟨0, []⟩ []).1 = some m ∧
      m ∈ toyLib.legal_moves 0 ∧
      (minimax toyLib 0 (pushGS toyLib ⟨0, []⟩ m) ⊥ ⊤ true []).1 =
        scoreOfInt (matBal toyLib (toyLib.push 0 m)) ∧
      ∀ m' ∈ toyLib.legal_moves 0,
        matBal toyLib (toyLib.push 0 m) ≤ matBal toyLib (toyLib.push 0 m') :=
  C9_depth_one_selection toyLib ⟨0, []⟩ (by decide) (by decide) (by decide)

lemma minimaxFuelInt_neg_none :
    ∀ (fuel : Nat) (d : Int), d < 0 →
      ∀ (s : GameState Nat) (a b : Score) (mx : Bool),
        minimaxFuelInt loopLib fuel d s a b mx [] = none := by
  intro fuel
  induction fuel with
  | zero => intro d _ s a b mx; rfl
  | succ fuel ih =>
    intro d hd s a b mx
    have hgo : loopLib.is_game_over s.pos = false := rfl
    have hc : ¬(d = 0 ∨ loopLib.is_game_over s.pos = true) := by
      rintro (h | h)
      · omega
      · rw [hgo] at h
        exact Bool.noConfusion h
    have horder : order_moves loopLib s.pos = [0] := rfl
    cases mx with
    | true =>
      simp only [minimaxFuelInt, ttLookupI, if_neg hc, if_pos, horder,
        searchLoopMaxFI]
      rw [ih (d - 1) (by omega)]
    | false =>
      simp only [minimaxFuelInt, ttLookupI, if_neg hc, horder,
        searchLoopMinFI]
      rw [ih (d - 1) (by omega)]
      rfl

/-- Counterexample to claim C10: on a collaborator that never reports
game over (a legal instance of the out-of-scope rules interface), the
Move Selector at depth 0 never completes: the source passes -1 to
`minimax`, where the `depth == 0` test never fires again, so the
recursion exhausts every fuel bound.  The depth-decrease argument of
the claim covers `minimax` at depth >= 0 and the selector at depth
>= 1 only; at root depth 0 termination rests solely on the rules
engine eventually reporting game over. -/
theorem C10_counterexample : selectionDiverges loopLib 0 ⟨0, []⟩ [] := by
  intro fuel
  show find_best_moveFI loopLib fuel 0 ⟨0, []⟩ [] = none
  have horder : order_moves loopLib (0 : Nat) = [0] := rfl
  simp only [find_best_moveFI, horder, fbmLoopFI]
  rw [minimaxFuelInt_neg_none fuel ((0 : Int) - 1) (by decide)]

lemma searchLoopMaxFI_some (lib : ChessLib B M)
    (f : Score → Score → GameState B → TTI →
      Option (Score × GameState B × TTI))
    (hf : ∀ a b st t, ∃ r, f a b st t = some r) :
    ∀ ms me a b (s : GameState B) tt,
      ∃ r, searchLoopMaxFI lib f ms me a b s tt = some r := by
  intro ms
  induction ms with
  | nil => intro me a b s tt; exact ⟨_, rfl⟩
  | cons m ms ih =>
    intro me a b s tt
    obtain ⟨r, hr⟩ := hf a b (pushGS lib s m) tt
    simp only [searchLoopMaxFI, hr]
    split
    · exact ⟨_, rfl⟩
    · exact ih _ _ _ _ _

lemma searchLoopMinFI_some (lib : ChessLib B M)
    (f : Score → Score → GameState B → TTI →
      Option (Score × GameState B × TTI))
    (hf : ∀ a b st t, ∃ r, f a b st t = some r) :
    ∀ ms me a b (s : GameState B) tt,
      ∃ r, searchLoopMinFI lib f ms me a b s tt = some r := by
  intro ms
  induction ms with
  | nil => intro me a b s tt; exact ⟨_, rfl⟩
  | cons m ms ih =>
    intro me a b s tt
    obtain ⟨r, hr⟩ := hf a b (pushGS lib s m) tt
    simp only [searchLoopMinFI, hr]
    split
    · exact ⟨_, rfl⟩
    · exact ih _ _ _ _ _

lemma minimaxFuelInt_some (lib : ChessLib B M) :
    ∀ (fuel : Nat) (d : Int), 0 ≤ d → d < (fuel : Int) →
      ∀ (s : GameState B) (a b : Score) (mx : Bool) (tt : TTI),
        ∃ r, minimaxFuelInt lib fuel d s a b mx tt = some r := by
  intro fuel
  induction fuel with
  | zero => intro d h0 hlt; omega
  | succ fuel ih =>
    intro d h0 hlt s a b mx tt
    simp only [minimaxFuelInt]
    cases hk : ttLookupI tt (lib.fen s.pos, d, mx) with
    | some v => exact ⟨_, rfl⟩
    | none =>
      simp only
      by_cases hterm : d = 0 ∨ lib.is_game_over s.pos = true
      · rw [if_pos hterm]
        exact ⟨_, rfl⟩
      · rw [if_neg hterm]
        have h0' : 0 ≤ d - 1 := by omega
        have hlt' : d - 1 < (fuel : Int) := by
          push_cast at hlt ⊢
          omega
        cases mx with
        | true =>
          obtain ⟨r, hr⟩ := searchLoopMaxFI_some lib
            (fun a b st t => minimaxFuelInt lib fuel (d - 1) st a b false t)
            (fun a b st t => ih (d - 1) h0' hlt' st a b false t)
            (order_moves lib s.pos) ⊥ a b s tt
          rw [if_pos rfl, hr]
          exact ⟨_, rfl⟩
        | false =>
          obtain ⟨r, hr⟩ := searchLoopMinFI_some lib
            (fun a b st t => minimaxFuelInt lib fuel (d - 1) st a b true t)
            (fun a b st t => ih (d - 1) h0' hlt' st a b true t)
            (order_moves lib s.pos) ⊤ a b s tt
          simp only [Bool.false_eq_true, if_false, hr]
          exact ⟨_, rfl⟩

lemma fbmLoopFI_some (lib : ChessLib B M) (fuel : Nat) (d : Int)
    (h0 : 0 ≤ d) (hlt : d < (fuel : Int)) :
    ∀ ms best bestVal a b (s : GameState B) tt,
      ∃ r, fbmLoopFI lib fuel d ms best bestVal a b s tt = some r := by
  intro ms
  induction ms with
  | nil => intro best bestVal a b s tt; exact ⟨_, rfl⟩
  | cons m ms ih =>
    intro best bestVal a b s tt
    obtain ⟨r, hr⟩ :=
      minimaxFuelInt_some lib fuel d h0 hlt (pushGS lib s m) a b true tt
    simp only [fbmLoopFI, hr]
    split
    · exact ih _ _ _ _ _ _
    · exact ih _ _ _ _ _ _

/-- Claim C10 as amended: with depth a genuine integer exactly as in
the source, the Search Engine terminates for every depth >= 0 and the
Move Selector for every depth >= 1 — any fuel bound exceeding the
remaining depth completes, because depth strictly decreases by one
per call and depth 0 is terminal.  At root depth 0 the selector
passes -1 to the search, where the depth test never fires again;
termination then rests solely on the rules collaborator eventually
reporting game over, and over a collaborator that never does, the
selection diverges (the counterexample). -/
theorem C10_amended (lib : ChessLib B M) (s : GameState B) (a b : Score)
    (mx : Bool) (tt : TTI) :
    (∀ (d : Int) (fuel : Nat), 0 ≤ d → d < (fuel : Int) →
        ∃ r, minimaxFuelInt lib fuel d s a b mx tt = some r) ∧
      ∀ (depth : Int) (fuel : Nat), 1 ≤ depth → depth - 1 < (fuel : Int) →
        ∃ r, find_best_moveFI lib fuel depth s tt = some r :=
  ⟨fun d fuel h0 hlt => minimaxFuelInt_some lib fuel d h0 hlt s a b mx tt,
    fun depth fuel h1 hlt =>
      fbmLoopFI_some lib fuel (depth - 1) (by omega) hlt _ _ _ _ _ _ _⟩

/-- Witness for C10 as amended, on concrete inputs: two units of fuel
complete a depth-1 search and a depth-2 move selection of the toy
game. -/
theorem C10_amended_witness :
    (∃ r, minimaxFuelInt toyLib 2 1 ⟨0, []⟩ ⊥ ⊤ true [] = some r) ∧
      ∃ r, find_best_moveFI toyLib 2 2 ⟨0, []⟩ [] = some r :=
  ⟨(C10_amended toyLib ⟨0, []⟩ ⊥ ⊤ true []).1 1 2 (by decide) (by decide),
    (C10_amended toyLib ⟨0, []⟩ ⊥ ⊤ true []).2 2 2 (by decide) (by decide)⟩

end ChessEngine
